import Mathlib

/-!
Shallow embedding of `src/Simulator_Trading.py` (class `TradingSimulatorTk`).

Real-valued program quantities are modelled as rationals (exact arithmetic).
Python's `round(x, 2)` (round half to even, two decimal places) is modelled
by `round2`, built from an integer round-half-to-even function `rhe`.
-/

namespace TradingSim

/-- Round half to even, to an integer: the integer rounding used by Python's
built-in `round`.  `⌊x⌋` when the fractional part is below 1/2, `⌊x⌋ + 1`
when above, and the even neighbour at an exact half. -/
def rhe (x : ℚ) : ℤ :=
  if x - ⌊x⌋ < 1/2 then ⌊x⌋
  else if 1/2 < x - ⌊x⌋ then ⌊x⌋ + 1
  else if ⌊x⌋ % 2 = 0 then ⌊x⌋ else ⌊x⌋ + 1

/-- `round(x, 2)` from the source: round half to even at two decimal places. -/
def round2 (x : ℚ) : ℚ := (rhe (100 * x) : ℚ) / 100

theorem floor_le_rhe (x : ℚ) : ⌊x⌋ ≤ rhe x := by
  unfold rhe; split_ifs <;> omega

theorem rhe_le_floor_add_one (x : ℚ) : rhe x ≤ ⌊x⌋ + 1 := by
  unfold rhe; split_ifs <;> omega

theorem rhe_mono {x y : ℚ} (h : x ≤ y) : rhe x ≤ rhe y := by
  have hf : ⌊x⌋ ≤ ⌊y⌋ := Int.floor_le_floor h
  rcases eq_or_lt_of_le hf with heq | hlt
  · unfold rhe
    rw [← heq]
    split_ifs <;> first | omega | linarith
  · calc rhe x ≤ ⌊x⌋ + 1 := rhe_le_floor_add_one x
    _ ≤ ⌊y⌋ := by omega
    _ ≤ rhe y := floor_le_rhe y

theorem round2_mono : Monotone round2 := by
  intro x y h
  unfold round2
  have h1 : rhe (100 * x) ≤ rhe (100 * y) := rhe_mono (by linarith)
  have h2 : ((rhe (100 * x) : ℤ) : ℚ) ≤ ((rhe (100 * y) : ℤ) : ℚ) := by exact_mod_cast h1
  linarith

theorem one_le_round2 {x : ℚ} (h : 1 ≤ x) : 1 ≤ round2 x := by
  unfold round2
  have h1 : (100 : ℤ) ≤ ⌊(100 : ℚ) * x⌋ := Int.le_floor.mpr (by push_cast; linarith)
  have h2 : (100 : ℤ) ≤ rhe (100 * x) := le_trans h1 (floor_le_rhe _)
  have h3 : ((100 : ℤ) : ℚ) ≤ ((rhe (100 * x) : ℤ) : ℚ) := by exact_mod_cast h2
  push_cast at h3
  linarith

/-- `round2` is the identity on exact two-decimal values `n / 100`. -/
theorem round2_fixed (n : ℤ) : round2 ((n : ℚ) / 100) = (n : ℚ) / 100 := by
  unfold round2 rhe
  have h : (100 : ℚ) * ((n : ℚ) / 100) = (n : ℚ) := by ring
  rw [h, Int.floor_intCast]
  simp

/-- Evaluation rule for `round2` when the two-decimal fractional part is
below one half. -/
theorem round2_eq_of_lt_half (x : ℚ) (n : ℤ) (h1 : (n : ℚ) ≤ 100 * x)
    (h2 : 100 * x - n < 1/2) : round2 x = (n : ℚ) / 100 := by
  have hf : ⌊(100 : ℚ) * x⌋ = n := Int.floor_eq_iff.mpr ⟨h1, by linarith⟩
  unfold round2 rhe
  rw [hf, if_pos h2]

/-! ## Candles and the aggregator (`_append_new_candle`) -/

/-- One OHLC candle as stored in `self.candles`:
`{"open": ..., "high": ..., "low": ..., "close": ..., "color": ...}`. -/
structure Candle where
  open_ : ℚ
  high : ℚ
  low : ℚ
  close : ℚ
  color : String
deriving Repr, DecidableEq

/-- The candle construction in `_append_new_candle`, given the pre-rounding
open `o` and close `c` and the raw gaussian draws `gH`, `gL` for the wick
noise.  Mirrors:
`high = max(o, c) * (1 + abs(gauss)); low = min(o, c) * (1 - abs(gauss))`,
`color` green when `c >= o` else red, all four prices rounded to 2 places. -/
def appendNewCandle (o c gH gL : ℚ) : Candle :=
  { open_ := round2 o
    high := round2 (max o c * (1 + |gH|))
    low := round2 (min o c * (1 - |gL|))
    close := round2 c
    color := if c ≥ o then "#22c55e" else "#ef4444" }

/-- The open price used by `_append_new_candle`: on the initial call (or with
an empty history) it is `current_price * (1 + jitter)` with
`jitter = random.uniform(-0.001, 0.001)`; otherwise the previous candle's
stored close. -/
def openPrice (initial : Bool) (candles : List Candle) (currentPrice jitter : ℚ) : ℚ :=
  if initial || candles.isEmpty then currentPrice * (1 + jitter)
  else ((candles.getLast?).getD ⟨0, 0, 0, 0, ""⟩).close

/-! ## Price process (`_simulate_next_price`) -/

/-- `_simulate_next_price`: the next stored price from the current price `p`
and the gaussian percentage draw `pct`:
`round(max(1.0, p * (1.0 + pct)), 2)`. -/
def simulateNextPrice (p pct : ℚ) : ℚ := round2 (max 1 (p * (1 + pct)))

/-! ## Chart windowing and vertical scaling (`_draw_chart`) -/

/-- `CANDLE_WIDTH + CANDLE_GAP = 12 + 4`. -/
def candleStepPx : ℕ := 12 + 4

/-- `self.chart_w = WIDTH - CHART_LEFT_PAD - CHART_RIGHT_PAD = 1550 - 60 - 40`. -/
def chartWPx : ℕ := 1550 - 60 - 40

/-- `max_candles = max(1, chart_w // step)`. -/
def maxCandles (chartW step : ℕ) : ℕ := max 1 (chartW / step)

/-- `data = self.candles[-max_candles:]`: the visible window, the most recent
`max_candles` candles (all of them when fewer exist), in original order. -/
def visibleCandles (candles : List Candle) (chartW step : ℕ) : List Candle :=
  candles.drop (candles.length - maxCandles chartW step)

/-- `all_high = max(c["high"] for c in data)` (defined for nonempty `data`;
on `[]` we return 0, a case the source never evaluates). -/
def allHigh : List Candle → ℚ
  | [] => 0
  | c :: rest => rest.foldl (fun a d => max a d.high) c.high

/-- `all_low = min(c["low"] for c in data)`. -/
def allLow : List Candle → ℚ
  | [] => 0
  | c :: rest => rest.foldl (fun a d => min a d.low) c.low

/-- `padding = max(1.0, (all_high - all_low) * 0.10)`. -/
def padding (data : List Candle) : ℚ := max 1 ((allHigh data - allLow data) * (1/10))

/-- `top_price = all_high + padding`. -/
def topPrice (data : List Candle) : ℚ := allHigh data + padding data

/-- `bot_price = max(0.1, all_low - padding)`. -/
def botPrice (data : List Candle) : ℚ := max (1/10) (allLow data - padding data)

/-- The price-to-pixel mapping `yfrom` inside `_draw_chart`:
`chart_h - ((price - bot_price) / (top_price - bot_price)) * chart_h`. -/
def yfrom (chartH topP botP price : ℚ) : ℚ :=
  chartH - ((price - botP) / (topP - botP)) * chartH

/-! ## Trading actions (`_parse_qty`, `_buy_eth`, `_sell_eth`) -/

/-- `_parse_qty`: the parsed entry field is `none` when `float()` raised, else
`some q`; nonpositive or unparsable input yields `0.0` (after an error box). -/
def parseQty (entry : Option ℚ) : ℚ :=
  match entry with
  | none => 0
  | some q => if q ≤ 0 then 0 else q

/-- Tolerance `1e-9` in the buy guard. -/
def eps9 : ℚ := 1 / 1000000000

/-- Tolerance `1e-12` in the sell guard. -/
def eps12 : ℚ := 1 / 1000000000000

/-- Outcome of a trade action: the new `(balance_usd, balance_eth)` pair on
success, or the kind of rejection (each rejection is an early `return` after
a message box, with no balance mutation). -/
inductive TradeResult where
  | executed (usd eth : ℚ)
  | invalidQuantity
  | insufficientBalance
deriving Repr, DecidableEq

/-- `_buy_eth` on balances `(usd, eth)` with requested quantity `qty` at
`current_price = price`:
reject `qty <= 0`; reject when `cost > usd + 1e-9`; otherwise
`usd -= cost; eth += qty`. -/
def buyEth (usd eth qty price : ℚ) : TradeResult :=
  if qty ≤ 0 then .invalidQuantity
  else if qty * price > usd + eps9 then .insufficientBalance
  else .executed (usd - qty * price) (eth + qty)

/-- `_sell_eth` on balances `(usd, eth)`:
reject `qty <= 0`; reject when `qty > eth + 1e-12`; otherwise
`eth -= qty; usd += qty * price`. -/
def sellEth (usd eth qty price : ℚ) : TradeResult :=
  if qty ≤ 0 then .invalidQuantity
  else if qty > eth + eps12 then .insufficientBalance
  else .executed (usd + qty * price) (eth - qty)

/-- One user trade event: a buy or a sell of some quantity, at the price that
is current when the event fires. -/
inductive Op where
  | buy (qty price : ℚ)
  | sell (qty price : ℚ)
deriving Repr, DecidableEq

/-- The price at which an `Op` fires. -/
def Op.price : Op → ℚ
  | .buy _ p => p
  | .sell _ p => p

/-- Effect of one trade event on the balance pair: rejected trades leave the
balances unchanged (the handlers `return` before any mutation). -/
def step (st : ℚ × ℚ) (op : Op) : ℚ × ℚ :=
  match op with
  | .buy qty price =>
    match buyEth st.1 st.2 qty price with
    | .executed u e => (u, e)
    | _ => st
  | .sell qty price =>
    match sellEth st.1 st.2 qty price with
    | .executed u e => (u, e)
    | _ => st

/-- Effect of a sequence of trade events on the balance pair. -/
def run (st : ℚ × ℚ) (ops : List Op) : ℚ × ℚ := ops.foldl step st

/-! ## Helper lemmas about the windowed extrema -/

theorem foldl_max_high_le (l : List Candle) (a : ℚ) :
    a ≤ l.foldl (fun b d => max b d.high) a := by
  induction l generalizing a with
  | nil => exact le_refl a
  | cons x xs ih => exact le_trans (le_max_left a x.high) (ih (max a x.high))

theorem mem_foldl_max_high {cd : Candle} :
    ∀ (l : List Candle) (a : ℚ), cd ∈ l → cd.high ≤ l.foldl (fun b d => max b d.high) a
  | [], _, h => absurd h (List.not_mem_nil cd)
  | x :: xs, a, h => by
    rcases List.mem_cons.mp h with rfl | hmem
    · exact le_trans (le_max_right a cd.high) (foldl_max_high_le xs _)
    · exact mem_foldl_max_high xs (max a x.high) hmem

theorem le_foldl_min_low (l : List Candle) (a : ℚ) :
    l.foldl (fun b d => min b d.low) a ≤ a := by
  induction l generalizing a with
  | nil => exact le_refl a
  | cons x xs ih => exact le_trans (ih (min a x.low)) (min_le_left a x.low)

theorem foldl_min_low_mem {cd : Candle} :
    ∀ (l : List Candle) (a : ℚ), cd ∈ l → l.foldl (fun b d => min b d.low) a ≤ cd.low
  | [], _, h => absurd h (List.not_mem_nil cd)
  | x :: xs, a, h => by
    rcases List.mem_cons.mp h with rfl | hmem
    · exact le_trans (le_foldl_min_low xs _) (min_le_right a cd.low)
    · exact foldl_min_low_mem xs (min a x.low) hmem

theorem high_le_allHigh {cd : Candle} {data : List Candle} (h : cd ∈ data) :
    cd.high ≤ allHigh data := by
  match data with
  | [] => exact absurd h (List.not_mem_nil cd)
  | c :: rest =>
    show cd.high ≤ rest.foldl (fun b d => max b d.high) c.high
    rcases List.mem_cons.mp h with rfl | hmem
    · exact foldl_max_high_le rest cd.high
    · exact mem_foldl_max_high rest c.high hmem

theorem allLow_le_low {cd : Candle} {data : List Candle} (h : cd ∈ data) :
    allLow data ≤ cd.low := by
  match data with
  | [] => exact absurd h (List.not_mem_nil cd)
  | c :: rest =>
    show rest.foldl (fun b d => min b d.low) c.low ≤ cd.low
    rcases List.mem_cons.mp h with rfl | hmem
    · exact le_foldl_min_low rest cd.low
    · exact foldl_min_low_mem rest c.low hmem

/-- A fixed well-formed candle, used to build concrete histories. -/
def cd0 : Candle := ⟨100, 100, 100, 100, "#22c55e"⟩

/-! ## Claim theorems -/

/-- Claim C1: every candle built by the aggregator — from any positive
pre-rounding open and close and any wick-noise draws — stores rounded fields
with `low ≤ min(open, close)` and `max(open, close) ≤ high`; the ordering
survives rounding (the high/low are derived multiplicatively from the same
pre-rounding body bounds and rounding is monotone, so no clamping is ever
needed). -/
theorem candle_invariant (o c gH gL : ℚ) (ho : 0 < o) (hc : 0 < c) :
    (appendNewCandle o c gH gL).low ≤
      min (appendNewCandle o c gH gL).open_ (appendNewCandle o c gH gL).close ∧
    max (appendNewCandle o c gH gL).open_ (appendNewCandle o c gH gL).close ≤
      (appendNewCandle o c gH gL).high := by
  have hmin : (0 : ℚ) < min o c := lt_min ho hc
  have hmax : (0 : ℚ) < max o c := lt_of_lt_of_le ho (le_max_left o c)
  have hlow : min o c * (1 - |gL|) ≤ min o c := by nlinarith [abs_nonneg gL]
  have hhigh : max o c ≤ max o c * (1 + |gH|) := by nlinarith [abs_nonneg gH]
  refine ⟨?_, ?_⟩
  · show round2 (min o c * (1 - |gL|)) ≤ min (round2 o) (round2 c)
    rw [← round2_mono.map_min]
    exact round2_mono hlow
  · show max (round2 o) (round2 c) ≤ round2 (max o c * (1 + |gH|))
    rw [← round2_mono.map_max]
    exact round2_mono hhigh

theorem candle_invariant_witness :
    (appendNewCandle 100 100 0 0).low ≤
      min (appendNewCandle 100 100 0 0).open_ (appendNewCandle 100 100 0 0).close ∧
    max (appendNewCandle 100 100 0 0).open_ (appendNewCandle 100 100 0 0).close ≤
      (appendNewCandle 100 100 0 0).high :=
  candle_invariant 100 100 0 0 (by norm_num) (by norm_num)

/-- Claim C2: for every positive current price `p` and every gaussian
percentage draw `pct`, `_simulate_next_price` stores
`round(max(1.0, p * (1 + pct)), 2) ≥ 1.0`: the result is never zero or
negative. -/
theorem price_positivity (p pct : ℚ) (hp : 0 < p) : 1 ≤ simulateNextPrice p pct :=
  one_le_round2 (le_max_left 1 (p * (1 + pct)))

theorem price_positivity_witness : 1 ≤ simulateNextPrice 3500 (-2) :=
  price_positivity 3500 (-2) (by norm_num)

/-- Claim C3: with the chart width `1450` and candle step `16` of the source,
`max_candles = floor(1450/16) = 90` and any history of at least 90 candles
yields exactly its last 90 candles in original order; in general the window
is the last `min(max(1, chartW / step), length)` candles of the history. -/
theorem window_sizing :
    maxCandles chartWPx candleStepPx = 90 ∧
    (∀ hist : List Candle, 90 ≤ hist.length →
      visibleCandles hist chartWPx candleStepPx = hist.drop (hist.length - 90) ∧
      (visibleCandles hist chartWPx candleStepPx).length = 90) ∧
    (∀ (hist : List Candle) (w s : ℕ),
      (visibleCandles hist w s).length = min (max 1 (w / s)) hist.length ∧
      visibleCandles hist w s <:+ hist) := by
  refine ⟨by decide, fun hist h90 => ⟨?_, ?_⟩, fun hist w s => ⟨?_, ?_⟩⟩
  · show hist.drop (hist.length - maxCandles chartWPx candleStepPx) = _
    norm_num [maxCandles, chartWPx, candleStepPx]
  · show (hist.drop (hist.length - maxCandles chartWPx candleStepPx)).length = 90
    rw [List.length_drop]
    have : maxCandles chartWPx candleStepPx = 90 := by decide
    omega
  · show (hist.drop (hist.length - maxCandles w s)).length = _
    rw [List.length_drop]
    unfold maxCandles
    omega
  · exact ⟨hist.take (hist.length - maxCandles w s), List.take_append_drop _ _⟩

theorem window_sizing_witness :
    (visibleCandles (List.replicate 1000 cd0) chartWPx candleStepPx).length = 90 :=
  (window_sizing.2.1 (List.replicate 1000 cd0)
    (by rw [List.length_replicate]; norm_num)).2

/-- Claim C5: for every nonempty visible window of well-formed candles
(`0 ≤ low ≤ high`), including a degenerate flat series, the computed bounds
satisfy `botPrice < topPrice`, so the divisor `topPrice - botPrice` of the
price-to-pixel mapping is nonzero: the padding is at least `1.0` and the
bottom is floored at `0.1`. -/
theorem window_span_positive (data : List Candle) (hne : data ≠ [])
    (hcd : ∀ cd ∈ data, 0 ≤ cd.low ∧ cd.low ≤ cd.high) :
    botPrice data < topPrice data ∧ topPrice data - botPrice data ≠ 0 := by
  obtain ⟨c, rest, rfl⟩ := List.exists_cons_of_ne_nil hne
  obtain ⟨hc0, hc1⟩ := hcd c (List.mem_cons_self c rest)
  have h1 : c.high ≤ allHigh (c :: rest) := high_le_allHigh (List.mem_cons_self c rest)
  have h2 : allLow (c :: rest) ≤ c.low := allLow_le_low (List.mem_cons_self c rest)
  have hpad : 1 ≤ padding (c :: rest) := le_max_left 1 _
  have hlt : botPrice (c :: rest) < topPrice (c :: rest) := by
    unfold botPrice topPrice
    apply max_lt
    · linarith
    · linarith
  exact ⟨hlt, (sub_pos.mpr hlt).ne'⟩

theorem window_span_positive_witness :
    botPrice [cd0] < topPrice [cd0] ∧ topPrice [cd0] - botPrice [cd0] ≠ 0 :=
  window_span_positive [cd0] (by simp)
    (by intro cd h; simp only [List.mem_singleton] at h; subst h; exact ⟨by norm_num [cd0], by norm_num [cd0]⟩)

/-- Claim C6: for every pair with `botPrice < topPrice` and every chart
height, the linear mapping `yfrom` sends `topPrice` exactly to `0` and
`botPrice` exactly to `chartH`. -/
theorem mapping_correctness (chartH topP botP : ℚ) (h : botP < topP) :
    yfrom chartH topP botP topP = 0 ∧ yfrom chartH topP botP botP = chartH := by
  have hne : topP - botP ≠ 0 := (sub_pos.mpr h).ne'
  unfold yfrom
  constructor
  · rw [div_self hne, one_mul, sub_self]
  · rw [sub_self, zero_div, zero_mul, sub_zero]

theorem mapping_correctness_witness :
    yfrom 560 101 99 101 = 0 ∧ yfrom 560 101 99 99 = 560 :=
  mapping_correctness 560 101 99 (by norm_num)

/-- Claim C4, counterexample: the color tag is computed from the
pre-rounding open and close, so an initial candle whose jittered open
exceeds the close by less than half a cent is tagged `down` (red) although
its stored rounded open equals its stored rounded close.  Here the open is
`3500 * (1 + 10⁻⁷)` (jitter `10⁻⁷ ∈ [-0.001, 0.001]`) and the close `3500`:
both round to `3500.00`, yet the tag is red, contradicting
"`up` exactly when stored close ≥ stored open". -/
theorem direction_tag_counterexample :
    (appendNewCandle (openPrice true [] 3500 (1/10000000)) 3500 0 0).open_ ≤
      (appendNewCandle (openPrice true [] 3500 (1/10000000)) 3500 0 0).close ∧
    (appendNewCandle (openPrice true [] 3500 (1/10000000)) 3500 0 0).color ≠ "#22c55e" := by
  have hopen : openPrice true [] 3500 (1/10000000) = 3500 * (1 + 1/10000000) := rfl
  constructor
  · show round2 (openPrice true [] 3500 (1/10000000)) ≤ round2 3500
    rw [hopen,
      round2_eq_of_lt_half (3500 * (1 + 1/10000000)) 350000 (by norm_num) (by norm_num),
      round2_eq_of_lt_half 3500 350000 (by norm_num) (by norm_num)]
  · show (if (3500 : ℚ) ≥ openPrice true [] 3500 (1/10000000) then "#22c55e" else "#ef4444") ≠
      "#22c55e"
    rw [hopen, if_neg (by norm_num : ¬ ((3500 : ℚ) ≥ 3500 * (1 + 1/10000000)))]
    decide

/-- Claim C4, amended: the tag equals `up` (green) exactly when the
pre-rounding close is ≥ the pre-rounding open; whenever the open and close
fed to the aggregator are already exact two-decimal values — which holds
for every non-initial candle, whose open is the previous stored close and
whose close is the rounded current price — this coincides with comparing
the stored (rounded) fields. -/
theorem direction_tag_consistent (o c gH gL : ℚ)
    (ho : round2 o = o) (hc : round2 c = c) :
    ((appendNewCandle o c gH gL).color = "#22c55e" ↔
      (appendNewCandle o c gH gL).open_ ≤ (appendNewCandle o c gH gL).close) := by
  show (if c ≥ o then "#22c55e" else "#ef4444") = "#22c55e" ↔ round2 o ≤ round2 c
  rw [ho, hc]
  split_ifs with h
  · simpa using h
  · constructor
    · intro hstr; exact absurd hstr (by decide)
    · intro hle; exact absurd hle h

theorem direction_tag_consistent_witness :
    ((appendNewCandle 3500 3600 0 0).color = "#22c55e" ↔
      (appendNewCandle 3500 3600 0 0).open_ ≤ (appendNewCandle 3500 3600 0 0).close) :=
  direction_tag_consistent 3500 3600 0 0
    (by rw [round2_eq_of_lt_half 3500 350000 (by norm_num) (by norm_num)]; norm_num)
    (by rw [round2_eq_of_lt_half 3600 360000 (by norm_num) (by norm_num)]; norm_num)

/-- Claim C7, counterexample: the buy guard tolerates an overdraw of up to
`1e-9`: a buy of quantity `10000 + 1e-9` at price `1` from balances
`(10000, 0)` passes the guard `cost > usd + 1e-9` (the two sides are equal)
and leaves the quote balance at `-1e-9 < 0`, refuting "both balances remain
nonnegative" and "a buy succeeds only when `quantity * price ≤
quoteBalance`". -/
theorem balance_nonneg_counterexample :
    (run (10000, 0) [Op.buy (10000 + eps9) 1]).1 < 0 := by
  have hb : buyEth 10000 0 (10000 + eps9) 1 =
      .executed (10000 - (10000 + eps9) * 1) (0 + (10000 + eps9)) := by
    unfold buyEth
    rw [if_neg (by norm_num [eps9] : ¬ ((10000 + eps9 : ℚ) ≤ 0)),
      if_neg (by norm_num : ¬ ((10000 + eps9) * 1 > (10000 : ℚ) + eps9))]
  have hr : run (10000, 0) [Op.buy (10000 + eps9) 1] =
      (10000 - (10000 + eps9) * 1, 0 + (10000 + eps9)) := by
    show step (10000, 0) (Op.buy (10000 + eps9) 1) = _
    simp only [step, hb]
  rw [hr]
  norm_num [eps9]

/-- Helper for the amended C7: one trade event at a nonnegative price keeps
the quote balance above `-1e-9` and the base balance above `-1e-12`. -/
theorem step_lb {q b : ℚ} (op : Op) (hq : -eps9 ≤ q) (hb : -eps12 ≤ b)
    (hp : 0 ≤ op.price) :
    -eps9 ≤ (step (q, b) op).1 ∧ -eps12 ≤ (step (q, b) op).2 := by
  have he9 : (0 : ℚ) < eps9 := by norm_num [eps9]
  have he12 : (0 : ℚ) < eps12 := by norm_num [eps12]
  cases op with
  | buy qty price =>
    simp only [step, buyEth]
    split_ifs with h1 h2
    · exact ⟨hq, hb⟩
    · exact ⟨hq, hb⟩
    · constructor
      · show -eps9 ≤ q - qty * price
        push_neg at h2
        linarith
      · show -eps12 ≤ b + qty
        push_neg at h1
        linarith
  | sell qty price =>
    simp only [step, sellEth]
    split_ifs with h1 h2
    · exact ⟨hq, hb⟩
    · exact ⟨hq, hb⟩
    · push_neg at h1 h2
      have hqp : 0 ≤ qty * price := mul_nonneg (le_of_lt h1) hp
      constructor
      · show -eps9 ≤ q + qty * price
        linarith
      · show -eps12 ≤ b - qty
        linarith

/-- Claim C7, amended: starting from nonnegative balances, after any
sequence of buy and sell events at nonnegative prices the quote balance
stays ≥ `-1e-9` and the base balance ≥ `-1e-12`: a buy succeeds only when
`quantity > 0` and `quantity * price ≤ quoteBalance + 1e-9`, and a sell
only when `quantity > 0` and `quantity ≤ baseBalance + 1e-12`, so each
executed trade can overdraw by at most the guard tolerance, and a balance
already below zero blocks any further overdraw. -/
theorem balances_bounded_below (ops : List Op) (q b : ℚ) (hq : 0 ≤ q) (hb : 0 ≤ b)
    (hp : ∀ op ∈ ops, 0 ≤ op.price) :
    -eps9 ≤ (run (q, b) ops).1 ∧ -eps12 ≤ (run (q, b) ops).2 := by
  have main : ∀ (l : List Op) (st : ℚ × ℚ), -eps9 ≤ st.1 → -eps12 ≤ st.2 →
      (∀ op ∈ l, 0 ≤ op.price) → -eps9 ≤ (run st l).1 ∧ -eps12 ≤ (run st l).2 := by
    intro l
    induction l with
    | nil => exact fun st h1 h2 _ => ⟨h1, h2⟩
    | cons op rest ih =>
      intro st h1 h2 hpl
      have hs : -eps9 ≤ (step (st.1, st.2) op).1 ∧ -eps12 ≤ (step (st.1, st.2) op).2 :=
        step_lb op h1 h2 (hpl op (List.mem_cons_self op rest))
      have hst : run st (op :: rest) = run (step st op) rest := rfl
      rw [hst]
      exact ih (step st op) hs.1 hs.2 (fun o ho => hpl o (List.mem_cons_of_mem op ho))
  exact main ops (q, b) (le_trans (by norm_num [eps9]) hq) (le_trans (by norm_num [eps12]) hb) hp

theorem balances_bounded_below_witness :
    -eps9 ≤ (run (10000, 0) [Op.buy 1 3500, Op.sell 1 3500]).1 ∧
    -eps12 ≤ (run (10000, 0) [Op.buy 1 3500, Op.sell 1 3500]).2 :=
  balances_bounded_below [Op.buy 1 3500, Op.sell 1 3500] 10000 0
    (by norm_num) (by norm_num) (by
      intro op h
      rcases List.mem_cons.mp h with rfl | h2
      · norm_num [Op.price]
      · rcases List.mem_cons.mp h2 with rfl | h3
        · norm_num [Op.price]
        · exact absurd h3 (List.not_mem_nil op))

/-- Claim C8: from balances `(10000, 0)` at constant price `3500`,
`buy(0.1)` yields `(9650, 0.1)`, the immediately following `sell(0.1)`
restores `(10000, 0)` exactly, and in general a successful buy followed by
a sell of the same quantity at an unchanged price is the identity on the
balance pair. -/
theorem trade_round_trip :
    buyEth 10000 0 (1/10) 3500 = .executed 9650 (1/10) ∧
    sellEth 9650 (1/10) (1/10) 3500 = .executed 10000 0 ∧
    (∀ q b qty p : ℚ, 0 < qty → qty * p ≤ q + eps9 → 0 ≤ b →
      step (step (q, b) (.buy qty p)) (.sell qty p) = (q, b)) := by
  refine ⟨?_, ?_, ?_⟩
  · unfold buyEth
    rw [if_neg (by norm_num : ¬ ((1/10 : ℚ) ≤ 0)),
      if_neg (by norm_num [eps9] : ¬ ((1/10 : ℚ) * 3500 > 10000 + eps9))]
    norm_num
  · unfold sellEth
    rw [if_neg (by norm_num : ¬ ((1/10 : ℚ) ≤ 0)),
      if_neg (by norm_num [eps12] : ¬ ((1/10 : ℚ) > 1/10 + eps12))]
    norm_num
  intro q b qty p h1 h2 h3
  have he12 : (0 : ℚ) < eps12 := by norm_num [eps12]
  have hbuy : buyEth q b qty p = .executed (q - qty * p) (b + qty) := by
    unfold buyEth
    rw [if_neg (not_le.mpr h1), if_neg (not_lt.mpr h2)]
  have hsell : sellEth (q - qty * p) (b + qty) qty p =
      .executed (q - qty * p + qty * p) (b + qty - qty) := by
    unfold sellEth
    rw [if_neg (not_le.mpr h1), if_neg (not_lt.mpr (by linarith))]
  have hstep1 : step (q, b) (.buy qty p) = (q - qty * p, b + qty) := by
    simp only [step, hbuy]
  rw [hstep1]
  have hstep2 : step (q - qty * p, b + qty) (.sell qty p) =
      (q - qty * p + qty * p, b + qty - qty) := by
    simp only [step, hsell]
  rw [hstep2]
  refine Prod.ext ?_ ?_ <;> simp

theorem trade_round_trip_witness :
    step (step ((5000 : ℚ), (2 : ℚ)) (.buy 1 100)) (.sell 1 100) = (5000, 2) :=
  trade_round_trip.2.2 5000 2 1 100 (by norm_num) (by norm_num [eps9]) (by norm_num)

/-- Claim C9: a buy of quantity `100` at price `3500` with quote balance
`10000` (cost `350000 > 10000 + 1e-9`) is rejected as insufficient balance
and leaves the balances unchanged; in general every rejected buy or sell
(invalid quantity or insufficient balance) leaves the balance pair
untouched. -/
theorem insufficient_funds :
    buyEth 10000 0 100 3500 = .insufficientBalance ∧
    step (10000, 0) (.buy 100 3500) = (10000, 0) ∧
    (∀ q b qty p : ℚ,
      (buyEth q b qty p = .invalidQuantity ∨ buyEth q b qty p = .insufficientBalance) →
      step (q, b) (.buy qty p) = (q, b)) ∧
    (∀ q b qty p : ℚ,
      (sellEth q b qty p = .invalidQuantity ∨ sellEth q b qty p = .insufficientBalance) →
      step (q, b) (.sell qty p) = (q, b)) := by
  have hbuy : buyEth 10000 0 100 3500 = .insufficientBalance := by
    unfold buyEth
    rw [if_neg (by norm_num : ¬ ((100 : ℚ) ≤ 0)),
      if_pos (by norm_num [eps9] : (100 : ℚ) * 3500 > 10000 + eps9)]
  refine ⟨hbuy, by show step (10000, 0) (Op.buy 100 3500) = _; simp only [step, hbuy], ?_, ?_⟩
  · intro q b qty p h
    rcases h with h | h <;> simp [step, h]
  · intro q b qty p h
    rcases h with h | h <;> simp [step, h]

theorem insufficient_funds_witness :
    step ((10000 : ℚ), (20 : ℚ)) (.buy 100 3500) = (10000, 20) :=
  insufficient_funds.2.2.1 10000 20 100 3500 (Or.inr (by
    unfold buyEth
    rw [if_neg (by norm_num : ¬ ((100 : ℚ) ≤ 0)),
      if_pos (by norm_num [eps9] : (100 : ℚ) * 3500 > 10000 + eps9)]))

/-- Claim C10: trading at a fixed price preserves equity
`quote + base * price` exactly: a successful buy moves `qty * price` from
quote to base and a successful sell moves it back, so the pre- and
post-trade equity agree in exact arithmetic. -/
theorem equity_preserved (q b qty p u e : ℚ) :
    (buyEth q b qty p = .executed u e → u + e * p = q + b * p) ∧
    (sellEth q b qty p = .executed u e → u + e * p = q + b * p) := by
  constructor
  · intro h
    unfold buyEth at h
    split_ifs at h
    injection h with h1 h2
    rw [← h1, ← h2]
    ring
  · intro h
    unfold sellEth at h
    split_ifs at h
    injection h with h1 h2
    rw [← h1, ← h2]
    ring

theorem equity_preserved_witness :
    (9650 : ℚ) + (1/10) * 3500 = 10000 + 0 * 3500 :=
  (equity_preserved 10000 0 (1/10) 3500 9650 (1/10)).1 (by
    unfold buyEth
    rw [if_neg (by norm_num : ¬ ((1/10 : ℚ) ≤ 0)),
      if_neg (by norm_num [eps9] : ¬ ((1/10 : ℚ) * 3500 > 10000 + eps9))]
    norm_num)

end TradingSim
